import Mathlib

/-!
Verification of the faceted filtering and ranking engine of
`python_app/app.py` (product catalog filtering tool).

The Python functions are shallowly embedded as Lean definitions:
dictionaries become association lists (keys are unique in every Python
dict, so removing the entry for a key is modelled by removing every
entry with that key), Python strings become Lean `String`s compared by
code point exactly as Python compares them, Python's stable `sorted`
becomes a structural stable sort, and Python `float`
arithmetic inside `_parse_mbps` is modelled by exact rational
arithmetic on (numerator, power-of-ten denominator) pairs, with
Python's banker's rounding (`round`) made explicit.
-/

namespace SalesCtonet

/-! ## String utilities

Python string operations are re-implemented structurally over
character lists (rather than through the runtime-oriented `String`
API) so that every definition evaluates inside the kernel; each one
models the corresponding Python `str` method. -/

/-- Code-point lexicographic comparison of character lists, exactly the
order Python uses to compare `str` values. -/
def charListLe : List Char → List Char → Bool
  | [], _ => true
  | _ :: _, [] => false
  | a :: as, b :: bs =>
    if a.toNat < b.toNat then true
    else if a.toNat = b.toNat then charListLe as bs
    else false

/-- Python string `<=` (code-point lexicographic). -/
def strLe (a b : String) : Bool := charListLe a.data b.data

/-- Models Python `str.lower()`; the catalog values are ASCII so the
ASCII-only `Char.toLower` is an adequate model. -/
def pyLower (s : String) : String := String.mk (s.data.map Char.toLower)

/-- Models Python `str.startswith`. -/
def pyStartsWith (s t : String) : Bool := t.data.isPrefixOf s.data

/-- Strip leading and trailing whitespace from a character list. -/
def pyStripL (l : List Char) : List Char :=
  ((l.dropWhile Char.isWhitespace).reverse.dropWhile Char.isWhitespace).reverse

/-- Models Python `str.strip()` (ASCII whitespace suffices for the
catalog data). -/
def pyStrip (s : String) : String := String.mk (pyStripL s.data)

/-- Replacement loop of Python `str.replace`, scanning left to right
and never revisiting replaced text. The fuel argument (instantiated
with the list length, an upper bound on the number of steps) makes the
recursion structural. -/
def replFuel (pat rep : List Char) : Nat → List Char → List Char
  | 0, l => l
  | _ + 1, [] => []
  | fuel + 1, c :: cs =>
    if pat.isPrefixOf (c :: cs) then rep ++ replFuel pat rep fuel ((c :: cs).drop pat.length)
    else c :: replFuel pat rep fuel cs

/-- Models Python `s.replace(pat, rep)` for a non-empty pattern (the
app only replaces non-empty patterns). -/
def pyReplace (s pat rep : String) : String :=
  if pat = "" then s
  else String.mk (replFuel pat.data rep.data s.data.length s.data)

/-- Splitting loop of Python `str.split(sep)` with an explicit
separator; `cur` accumulates the current piece. -/
def splitFuel (sep : List Char) : Nat → List Char → List Char → List (List Char)
  | 0, l, cur => [cur ++ l]
  | _ + 1, [], cur => [cur]
  | fuel + 1, c :: cs, cur =>
    if sep.isPrefixOf (c :: cs) then cur :: splitFuel sep fuel ((c :: cs).drop sep.length) []
    else splitFuel sep fuel cs (cur ++ [c])

/-- Models Python `s.split(sep)` for a non-empty separator. -/
def pySplit (s sep : String) : List String :=
  if sep = "" then [s]
  else (splitFuel sep.data s.data.length s.data []).map (fun l => String.mk l)

/-- Models Python's substring test `needle in hay` (for the non-empty
needles the app uses). -/
def strContains (hay needle : String) : Bool :=
  1 < (pySplit hay needle).length

/-- Models `_strip_nbsp`: replace NBSP with a regular space and strip
surrounding whitespace. -/
def stripNbsp (s : String) : String := pyStrip (pyReplace s "\xa0" " ")

/-- Joins strings with a separator, as Python `", ".join(...)`. -/
def joinSep (sep : String) : List String → String
  | [] => ""
  | [x] => x
  | x :: xs => x ++ sep ++ joinSep sep xs

/-- Stable insertion of an element into a list sorted by `le`: the new
element goes before the first entry it compares `le` to, so earlier
elements of the original list stay before tied later ones. -/
def insertLe {α : Type} (le : α → α → Bool) (x : α) : List α → List α
  | [] => [x]
  | y :: ys => if le x y then x :: y :: ys else y :: insertLe le x ys

/-- Stable sort by the boolean total preorder `le`. Python `sorted` is
a stable sort and a stable sort by a total preorder is unique, so this
computes exactly what `sorted(items, key=...)` returns. -/
def sortLe {α : Type} (le : α → α → Bool) : List α → List α
  | [] => []
  | x :: xs => insertLe le x (sortLe le xs)

/-- Value of a decimal digit string, as Python `int` computes it. -/
def natOfDigits (ds : List Char) : Nat :=
  ds.foldl (fun n c => n * 10 + (c.toNat - 48)) 0

/-- Scanning loop of `_parse_int_prefix` (renamed here): accumulate the
first run of decimal digits and stop at the first non-digit that
follows it. -/
def parse_int_first_aux : List Char → String → String
  | [], num => num
  | c :: cs, num =>
    if c.isDigit then parse_int_first_aux cs (num.push c)
    else if num ≠ "" then num
    else parse_int_first_aux cs num

/-- Models `_parse_int_prefix`: extract the first integer from strings
like "2 (5G)"; 0 when the string holds no digit. -/
def parse_int_first (value : String) : Nat :=
  let num := parse_int_first_aux value.data ""
  if num = "" then 0 else natOfDigits num.data

/-- Models Python `int(s)` on a string: optional sign and decimal
digits after stripping whitespace. Python raises `ValueError` on any
other shape; the app only applies this to derived integer fields, so
the error branch is modelled as 0. -/
def pyIntStr (s : String) : Int :=
  let t := pyStripL s.data
  match t with
  | '-' :: ds => if ds ≠ [] && ds.all Char.isDigit then -(natOfDigits ds : Int) else 0
  | '+' :: ds => if ds ≠ [] && ds.all Char.isDigit then (natOfDigits ds : Int) else 0
  | ds => if ds ≠ [] && ds.all Char.isDigit then (natOfDigits ds : Int) else 0

/-- Models `_yes_no`: values starting (case-insensitively, after
stripping) with "y" become "Yes", with "n" become "No", anything else
passes through unchanged. -/
def yes_no (val : String) : String :=
  let s := pyLower (pyStrip val)
  if pyStartsWith s "y" then "Yes"
  else if pyStartsWith s "n" then "No"
  else val

/-- Digit/dot scanning loop of `_parse_mbps`: collects digits and at
most one dot, breaking at the first other character once something has
been collected. -/
def scanNumAux : List Char → String → Bool → String
  | [], num, _ => num
  | c :: cs, num, dotSeen =>
    if c.isDigit then scanNumAux cs (num.push c) dotSeen
    else if c = '.' ∧ ¬dotSeen then scanNumAux cs (num.push '.') true
    else if num ≠ "" then num
    else scanNumAux cs num dotSeen

/-- Number of digits after the decimal dot in a scanned number string. -/
def fracCount (num : String) : Nat :=
  match pySplit num "." with
  | [_, f] => f.length
  | _ => 0

/-- Python `round` (banker's rounding, half to even) of the exact
rational `num / den`, for `den > 0`. -/
def pyRoundNat (num den : Nat) : Nat :=
  let q := num / den
  let r := num % den
  if 2 * r < den then q
  else if den < 2 * r then q + 1
  else if q % 2 = 0 then q else q + 1

/-- Gigabit-marker test of `_parse_mbps` on the lowered, stripped
input: any of "gbps", "gbit", " 2.5 g", "g " occurring as a substring
selects the x1000 multiplier. -/
def hasGigaMarker (low : String) : Bool :=
  strContains low "gbps" || strContains low "gbit" ||
    strContains low " 2.5 g" || strContains low "g "

/-- Numerator of the first decimal number `_parse_mbps` scans out of
the (stripped) input: the value of all its digits run together. -/
def mbpsNumer (s : String) : Nat :=
  natOfDigits ((scanNumAux (stripNbsp s).data "" false).data.filter Char.isDigit)

/-- Power-of-ten denominator of the first decimal number scanned by
`_parse_mbps`. -/
def mbpsDenom (s : String) : Nat :=
  10 ^ fracCount (scanNumAux (stripNbsp s).data "" false)

/-- Models `_parse_mbps`: parse "300 Mbps" or "2.5 Gbps" into integer
Mbps. `float` values are modelled as exact rationals (numerator over a
power of ten); an unparseable number contributes the value 0, exactly
as the `except` branch sets `val = 0.0`. -/
def _parse_mbps (s : String) : Nat :=
  if s = "" then 0
  else
    let t := stripNbsp s
    let low := pyLower t
    let mult : Nat := if hasGigaMarker low then 1000 else 1
    pyRoundNat (mbpsNumer s * mult) (mbpsDenom s)

/-- All decimal digits of a string run together, as
`''.join(ch for ch in s if ch.isdigit())` produces them. -/
def digitsOf (s : String) : String := String.mk (s.data.filter Char.isDigit)

/-- Models `_parse_users_range`: parse "1–60" into (1, 60); a single
number gives equal bounds; no digits give (0, 0). Only the first two
extracted numbers are consulted. -/
def _parse_users_range (s : String) : Nat × Nat :=
  if s = "" then (0, 0)
  else
    let t := stripNbsp s
    let t := pyReplace (pyReplace t "–" "-") "—" "-"
    let parts := pySplit t "-"
    let nums := ((parts.map digitsOf).filter (fun d => d ≠ "")).map
      (fun d => natOfDigits d.data)
    match nums with
    | [] =>
      let d := digitsOf t
      if d = "" then (0, 0) else (natOfDigits d.data, natOfDigits d.data)
    | [n] => (n, n)
    | n1 :: n2 :: _ => (min n1 n2, max n1 n2)

/-- Models the WAN/LAN port derivation in `augment_product_data`: split
the slash/"or"-delimited value and keep the largest integer found.
Python takes `max` of a non-empty list; every element is a nonnegative
integer, so folding `max` from 0 computes the same value. -/
def max_port_count (v : String) : Nat :=
  let toks := pySplit (pyReplace (stripNbsp v) "or" "/") "/"
  (toks.map (fun t => parse_int_first t)).foldl Nat.max 0

/-! ## Data model

Python dictionaries are modelled as association lists with unique keys
(insertion order preserved, as Python guarantees). A product record
maps attribute names to values that are strings for raw catalog
fields, integers for the derived numeric fields, or the mock price
matrix attached under `_client_price_matrix`. -/

/-- Value stored in a product record dictionary. -/
inductive Val where
  | vstr : String → Val
  | vint : Int → Val
  | vprice : List (String × Int) → Val
deriving DecidableEq, Repr

/-- Python `repr` of the price dictionary; only its existence matters
to the claims, but `str(data.get(attr, ""))` could in principle reach
it. -/
def pyDictRepr (m : List (String × Int)) : String :=
  "\x7b" ++ joinSep ", "
    (m.map (fun p => "'" ++ p.1 ++ "': " ++ toString p.2)) ++ "\x7d"

/-- Models Python `str(v)` on a record value. -/
def pyStr : Val → String
  | .vstr s => s
  | .vint n => toString n
  | .vprice m => pyDictRepr m

/-- Models Python `int(v)` on a record value as used on the derived
numeric keys, which always hold integers; `int` of an unparseable
string or of a dict raises in Python and never happens in the app, so
those branches are modelled as 0. -/
def pyInt : Val → Int
  | .vstr s => pyIntStr s
  | .vint n => n
  | .vprice _ => 0

/-- Association-list lookup: `d.get(k)`. -/
def alookup {β : Type} (k : String) : List (String × β) → Option β
  | [] => none
  | (k', v) :: rest => if k' = k then some v else alookup k rest

/-- Association-list assignment `d[k] = v`: replace the value in place
when the key is present, append otherwise (Python dict assignment). -/
def aset {β : Type} (k : String) (v : β) : List (String × β) → List (String × β)
  | [] => [(k, v)]
  | (k', v') :: rest =>
    if k' = k then (k, v) :: rest else (k', v') :: aset k v rest

/-- Association-list removal `d.pop(k, None)`: a Python dict holds one
entry per key, so removing every entry with the key is the same
operation. -/
def aremove {β : Type} (k : String) : List (String × β) → List (String × β)
  | [] => []
  | (k', v) :: rest => if k' = k then aremove k rest else (k', v) :: aremove k rest

/-- A product: its name paired with its record dictionary. -/
abbrev Product := String × List (String × Val)

/-- Filter Set: attribute name mapped to the list of selected values. -/
abbrev Filters := List (String × List String)

/-- Numeric Filter Set: the three optional minimum thresholds parsed
by `parse_numeric_filters`. -/
structure NumFilters where
  min_router_mbps : Option Int
  min_speedfusion_mbps : Option Int
  min_users : Option Int
deriving DecidableEq, Repr

/-! ## Filter Evaluator -/

/-- Categorical stage of `apply_filters`: the product passes when, for
every attribute in the filter set, `str(data.get(attr, ""))` is one of
the selected values. -/
def matches_filters (data : List (String × Val)) (filters : Filters) : Bool :=
  filters.all (fun kv => kv.2.contains (pyStr ((alookup kv.1 data).getD (.vstr ""))))

/-- Integer value of a derived numeric field of a record, 0 when the
key is absent: `int(d.get(key, 0))`. -/
def numField (key : String) (d : List (String × Val)) : Int :=
  pyInt ((alookup key d).getD (.vint 0))

/-- The categorical stage of `apply_filters` (`if not filters` keeps
the product list as is). -/
def catStage (products : List Product) (filters : Filters) : List Product :=
  if filters.isEmpty then products
  else products.filter (fun p => matches_filters p.2 filters)

/-- One numeric threshold stage of `apply_filters`: keep the products
whose derived field is at least the threshold, when one is present. -/
def numStage (key : String) (m : Option Int) (l : List Product) : List Product :=
  match m with
  | some m => l.filter (fun p => decide (m ≤ numField key p.2))
  | none => l

/-- Models `apply_filters`: categorical exact-match filtering followed
by the three numeric minimum-threshold stages, in source order,
preserving input order. -/
def apply_filters (products : List Product) (filters : Filters)
    (nf : NumFilters) : List Product :=
  numStage "Users Max" nf.min_users
    (numStage "SpeedFusion (Mbps)" nf.min_speedfusion_mbps
      (numStage "Router Throughput (Mbps)" nf.min_router_mbps
        (catStage products filters)))

/-! ## Request parsing -/

/-- Reserved query-parameter names skipped by `parse_filters`. -/
def RESERVED_PARAMS : List String :=
  ["category", "client_category", "short_description", "min_router_mbps",
   "min_speedfusion_mbps", "min_users", "sort", "embed"]

/-- Models `args.getlist(k)`: every supplied value for the key, in
order of appearance. -/
def getlist (args : List (String × String)) (k : String) : List String :=
  (args.filter (fun kv => kv.1 = k)).map (fun kv => kv.2)

/-- Key deduplication keeping first occurrences, as `MultiDict.keys()`
enumerates each key once in insertion order. -/
def dedupKeysAux (seen : List String) : List String → List String
  | [] => []
  | k :: rest =>
    if seen.contains k then dedupKeysAux seen rest
    else k :: dedupKeysAux (k :: seen) rest

/-- Unique keys of the request argument multimap, in first-occurrence
order. -/
def dedupKeys (ks : List String) : List String := dedupKeysAux [] ks

/-- Models `parse_filters`: for every non-reserved key of the request
arguments, select the first supplied value as the single selection. -/
def parse_filters (args : List (String × String)) : Filters :=
  (dedupKeys (args.map (fun kv => kv.1))).foldl
    (fun filters k =>
      if RESERVED_PARAMS.contains k then filters
      else
        match getlist args k with
        | [] => filters
        | v :: _ => aset k [v] filters)
    []

/-! ## Catalog Index and Salience Ranker -/

/-- Keys excluded from the facet universe by `build_attribute_index`. -/
def EXCLUDED_KEYS : List String :=
  ["Citations", "pdf_url", "short_description",
   "Router Throughput (Mbps)", "SpeedFusion (Mbps)", "Users Min",
   "Users Max", "WAN Ports Max", "LAN Ports Max", "_client_price_matrix"]

/-- Models `idx.setdefault(k, set()).add(str(v))`: the per-attribute
value set is kept as a duplicate-free list, so its length is the
distinct-value count. -/
def addToIndex : List (String × List String) → String → String → List (String × List String)
  | [], k, v => [(k, [v])]
  | (k', vs) :: rest, k, v =>
    if k' = k then (k', if vs.contains v then vs else vs ++ [v]) :: rest
    else (k', vs) :: addToIndex rest k v

/-- Models `build_attribute_index`: distinct raw string values per
non-reserved attribute, over all products. -/
def build_attribute_index (products : List Product) : List (String × List String) :=
  products.foldl
    (fun idx p =>
      p.2.foldl
        (fun idx kv =>
          if EXCLUDED_KEYS.contains kv.1 then idx
          else addToIndex idx kv.1 (pyStr kv.2))
        idx)
    []

/-- Sort key of `compute_salience`: Python's tuple order on
`(-distinct, attr)`, i.e. distinct-value count descending then the
attribute name ascending in code-point order. -/
def salienceLe (a b : String × Nat) : Bool :=
  b.2 < a.2 || (a.2 == b.2 && strLe a.1 b.1)

/-- Models `compute_salience`: keep attributes with more than one
distinct value, sorted by distinct count descending with name
ascending as the tie-break (Python `sort` is a stable merge sort). -/
def compute_salience (products : List Product) : List String :=
  let idx := build_attribute_index products
  let scores := (idx.filter (fun kv => 1 < kv.2.length)).map
    (fun kv => (kv.1, kv.2.length))
  (sortLe salienceLe scores).map (fun sc => sc.1)

/-! ## Facet Counter and Quick-Pick exclusion -/

/-- Hypothetical filter set of `count_with_included`: force the
attribute's selection to exactly the one value, then, when the
attribute belongs to the registered quick-pick group, drop every other
group member. The group is passed explicitly; in the code it is the
request-scoped `g.quick_pick_attrs` set. -/
def included_filters (current : Filters) (attr val : String)
    (qp : List String) : Filters :=
  let f := aset attr [val] current
  if qp.contains attr then
    qp.foldl (fun acc a => if a = attr then acc else aremove a acc) f
  else f

/-- Models `count_with_included`. -/
def count_with_included (products : List Product) (current : Filters)
    (attr val : String) (qp : List String) (nf : NumFilters) : Nat :=
  (apply_filters products (included_filters current attr val qp) nf).length

/-- Hypothetical filter set of `count_with_toggled`: when the value is
already the sole selection for the attribute the constraint is
removed; otherwise the selection is replaced and the quick-pick group
cleared, which is the same computation `count_with_included`
performs. -/
def toggled_filters (current : Filters) (attr val : String)
    (qp : List String) : Filters :=
  let existing := (alookup attr current).getD []
  if existing.contains val && existing.length == 1 then aremove attr current
  else included_filters current attr val qp

/-- Models `count_with_toggled`. -/
def count_with_toggled (products : List Product) (current : Filters)
    (attr val : String) (qp : List String) (nf : NumFilters) : Nat :=
  (apply_filters products (toggled_filters current attr val qp) nf).length

/-! ## Sorter -/

/-- Name sort key: case-insensitive product name ascending. -/
def nameLe (x y : Product) : Bool := strLe (pyLower x.1) (pyLower y.1)

/-- Python tuple key `(-numField, name.lower())` in `sorted`: metric
descending, then case-insensitive name ascending. -/
def descByLe (key : String) (x y : Product) : Bool :=
  numField key y.2 < numField key x.2 ||
    (numField key x.2 == numField key y.2 && strLe (pyLower x.1) (pyLower y.1))

/-- Models `sort_products`: an absent or empty key falls back to name
ascending (Python `if not key`), the three metric keys sort descending
with name tie-break, `name_asc` sorts by name, and any other key
returns the input unchanged. -/
def sort_products (items : List Product) (key : Option String) : List Product :=
  match key with
  | none => sortLe nameLe items
  | some k =>
    if k = "" then sortLe nameLe items
    else if k = "router_desc" then sortLe (descByLe "Router Throughput (Mbps)") items
    else if k = "speedfusion_desc" then sortLe (descByLe "SpeedFusion (Mbps)") items
    else if k = "users_desc" then sortLe (descByLe "Users Max") items
    else if k = "name_asc" then sortLe nameLe items
    else items

/-! ## Normalizer

`augment_product_data` reads and writes a fixed set of dictionary
keys and leaves every other key untouched, so the enriched record is
embedded as a structure with one field per key the function touches
plus an untouched remainder. Raw catalog values are strings; the
derived numeric fields hold the integers the function writes. -/

/-- Enriched product record, one field per key touched by
`augment_product_data` (field names abbreviate the dataset keys,
e.g. `sf_noenc` is "SpeedFusion Throughput (no encryption)" and
`sf_vpn_noenc` the legacy "SpeedFusion VPN Throughput (No
Encryption)"); `rest` holds the untouched open-schema attributes. -/
structure ARec where
  numCellularModems : Option String
  cellularModemCatOptions : Option String
  short_description : Option String
  wifiAP : Option String
  fiveG_support : Option String
  sf_noenc : Option String
  sf_vpn_noenc : Option String
  sf_aes : Option String
  sf_vpn_aes : Option String
  router_throughput : Option String
  numRecommendedUsers : Option String
  wan_ports : Option String
  lan_ports : Option String
  modem_group : Option String
  router_mbps : Option Nat
  speedfusion_mbps : Option Nat
  users_min : Option Nat
  users_max : Option Nat
  wan_ports_max : Option Nat
  lan_ports_max : Option Nat
  price_matrix : Option (List (String × Int))
  rest : List (String × String)
deriving DecidableEq, Repr

/-- Modem-count bucketing of `augment_product_data`: the
integer-prefix count maps 0 to "None", 1 to "Single", 2 or more to
"Multi" (the count is a Nat, so Python's `count <= 0` is `count = 0`). -/
def modemGroupOf (modemRaw : Option String) : String :=
  let count := match modemRaw with
    | some v => parse_int_first v
    | none => 0
  if count = 0 then "None" else if count = 1 then "Single" else "Multi"

/-- The 5G inference step on the current "5G support" value, given
whether any scanned field contains "5g": force "Yes" on a positive
scan, set "No" when the scan is negative and the value is absent or
blank, otherwise keep the value. -/
def fiveGUpdate (has5g : Bool) (cur : Option String) : Option String :=
  if has5g && !(cur == some "Yes") then some "Yes"
  else if !has5g && (cur == none || pyStrip (cur.getD "") == "") then some "No"
  else cur

/-- Effect of `if price_map: out[PRICE_MATRIX_KEY] = price_map` on the
stored matrix: an empty dict is falsy in Python, so only a non-empty
looked-up matrix replaces the previous value. -/
def priceUpdate (pm old : Option (List (String × Int))) : Option (List (String × Int)) :=
  match pm with
  | some m => if m.isEmpty then old else some m
  | none => old

/-- The price-attachment step of `augment_product_data`; `pm` is the
looked-up `PRICE_DB.get(category, ...).get(name)`. -/
def augPrice (pm : Option (List (String × Int))) (out : ARec) : ARec :=
  { out with price_matrix := priceUpdate pm out.price_matrix }

/-- The modem-group derivation step of `augment_product_data`. -/
def augModem (out : ARec) : ARec :=
  { out with modem_group := some (modemGroupOf out.numCellularModems) }

/-- The Yes/No normalization step for "Wi‑Fi AP": `if "Wi‑Fi AP" in
out` guards the assignment, which is exactly a map over the optional
value. -/
def augWifi (out : ARec) : ARec :=
  { out with wifiAP := Option.map yes_no out.wifiAP }

/-- The Yes/No normalization step for "5G support". -/
def augFiveGNorm (out : ARec) : ARec :=
  { out with fiveG_support := Option.map yes_no out.fiveG_support }

/-- Scan of the modem-count field, the cellular-category field and the
free-text description for a case-insensitive "5g" substring. -/
def has5gScan (out : ARec) : Bool :=
  strContains (pyLower (out.numCellularModems.getD "")) "5g" ||
  strContains (pyLower (out.cellularModemCatOptions.getD "")) "5g" ||
  strContains (pyLower (out.short_description.getD "")) "5g"

/-- The 5G-inference step of `augment_product_data`. -/
def augFiveGInfer (out : ARec) : ARec :=
  { out with fiveG_support := fiveGUpdate (has5gScan out) out.fiveG_support }

/-- SpeedFusion key unification: copy the legacy value into the
canonical key only when the canonical key is absent. -/
def sfUnify (canonical legacy : Option String) : Option String :=
  if canonical.isNone && legacy.isSome then legacy else canonical

/-- The key-unification step for the no-encryption throughput. -/
def augSfNoenc (out : ARec) : ARec :=
  { out with sf_noenc := sfUnify out.sf_noenc out.sf_vpn_noenc }

/-- The key-unification step for the 256-bit-AES throughput. -/
def augSfAes (out : ARec) : ARec :=
  { out with sf_aes := sfUnify out.sf_aes out.sf_vpn_aes }

/-- One guarded numeric derivation: `if key in out: out[derived] =
f(out[key])`, keeping the previous derived value when the source key
is absent. -/
def deriveOpt {α : Type} (src : Option String) (f : String → α)
    (old : Option α) : Option α :=
  match src with
  | some v => some (f v)
  | none => old

/-- The "Router Throughput (Mbps)" derivation step. -/
def augRouterMbps (out : ARec) : ARec :=
  { out with router_mbps := deriveOpt out.router_throughput _parse_mbps out.router_mbps }

/-- The "SpeedFusion (Mbps)" derivation step (reads the canonical key
as left by the unification step). -/
def augSfMbps (out : ARec) : ARec :=
  { out with speedfusion_mbps := deriveOpt out.sf_noenc _parse_mbps out.speedfusion_mbps }

/-- The "Users Min"/"Users Max" derivation step. -/
def augUsers (out : ARec) : ARec :=
  { out with
    users_min := deriveOpt out.numRecommendedUsers (fun v => (_parse_users_range v).1) out.users_min,
    users_max := deriveOpt out.numRecommendedUsers (fun v => (_parse_users_range v).2) out.users_max }

/-- The "WAN Ports Max" derivation step. -/
def augWan (out : ARec) : ARec :=
  { out with wan_ports_max := deriveOpt out.wan_ports max_port_count out.wan_ports_max }

/-- The "LAN Ports Max" derivation step. -/
def augLan (out : ARec) : ARec :=
  { out with lan_ports_max := deriveOpt out.lan_ports max_port_count out.lan_ports_max }

/-- Models `augment_product_data`: the source function mutates `out`
in a fixed sequence of steps, embedded here as the composition of the
step functions above in the same order (the price database is passed
explicitly in place of the module-level `PRICE_DB`). -/
def augment_product_data (priceDB : String → String → Option (List (String × Int)))
    (category name : String) (pdata : ARec) : ARec :=
  augLan (augWan (augUsers (augSfMbps (augRouterMbps (augSfAes (augSfNoenc
    (augFiveGInfer (augFiveGNorm (augWifi (augModem
      (augPrice (priceDB category name) pdata)))))))))))

/-! ## Sorting and lexicographic-order lemmas -/

theorem insertLe_perm {α : Type} (le : α → α → Bool) (x : α) (l : List α) :
    List.Perm (insertLe le x l) (x :: l) := by
  induction l with
  | nil => exact List.Perm.refl _
  | cons y ys ih =>
    unfold insertLe
    split
    · exact List.Perm.refl _
    · exact (List.Perm.cons y ih).trans (List.Perm.swap x y ys)

theorem sortLe_perm {α : Type} (le : α → α → Bool) (l : List α) :
    List.Perm (sortLe le l) l := by
  induction l with
  | nil => exact List.Perm.refl _
  | cons x xs ih => exact (insertLe_perm le x (sortLe le xs)).trans (List.Perm.cons x ih)

theorem mem_insertLe {α : Type} (le : α → α → Bool) (x a : α) (l : List α) :
    a ∈ insertLe le x l ↔ a = x ∨ a ∈ l := by
  rw [(insertLe_perm le x l).mem_iff, List.mem_cons]

theorem pairwise_insertLe {α : Type} (le : α → α → Bool)
    (htr : ∀ a b c, le a b = true → le b c = true → le a c = true)
    (hto : ∀ a b, le a b = true ∨ le b a = true)
    (x : α) (l : List α) (h : l.Pairwise (fun a b => le a b = true)) :
    (insertLe le x l).Pairwise (fun a b => le a b = true) := by
  induction l with
  | nil => simp [insertLe]
  | cons y ys ih =>
    rcases List.pairwise_cons.mp h with ⟨hy, hys⟩
    unfold insertLe
    split
    · rename_i hxy
      refine List.pairwise_cons.mpr ⟨?_, h⟩
      intro b hb
      rcases List.mem_cons.mp hb with hb | hb
      · exact hb ▸ hxy
      · exact htr x y b hxy (hy b hb)
    · rename_i hxy
      have hyx : le y x = true := by
        rcases hto x y with hx | hx
        · exact absurd hx hxy
        · exact hx
      refine List.pairwise_cons.mpr ⟨?_, ih hys⟩
      intro b hb
      rcases (mem_insertLe le x b ys).mp hb with hb | hb
      · exact hb ▸ hyx
      · exact hy b hb

theorem pairwise_sortLe {α : Type} (le : α → α → Bool)
    (htr : ∀ a b c, le a b = true → le b c = true → le a c = true)
    (hto : ∀ a b, le a b = true ∨ le b a = true)
    (l : List α) : (sortLe le l).Pairwise (fun a b => le a b = true) := by
  induction l with
  | nil => simp [sortLe]
  | cons x xs ih => exact pairwise_insertLe le htr hto x (sortLe le xs) ih

theorem charListLe_total (a b : List Char) :
    charListLe a b = true ∨ charListLe b a = true := by
  induction a generalizing b with
  | nil => left; rfl
  | cons x xs ih =>
    cases b with
    | nil => right; rfl
    | cons y ys =>
      by_cases hlt : x.toNat < y.toNat
      · left; simp [charListLe, hlt]
      · by_cases heq : x.toNat = y.toNat
        · rcases ih ys with h | h
          · left
            simp [charListLe, hlt, heq, h]
          · right
            have h1 : ¬ y.toNat < x.toNat := by omega
            have h2 : y.toNat = x.toNat := heq.symm
            simp [charListLe, h1, h2, h]
        · right
          have h1 : y.toNat < x.toNat := by omega
          simp [charListLe, h1]

theorem charListLe_trans (a b c : List Char) (h1 : charListLe a b = true)
    (h2 : charListLe b c = true) : charListLe a c = true := by
  induction a generalizing b c with
  | nil => rfl
  | cons x xs ih =>
    cases b with
    | nil => simp [charListLe] at h1
    | cons y ys =>
      cases c with
      | nil => simp [charListLe] at h2
      | cons z zs =>
        simp only [charListLe] at h1 h2 ⊢
        split at h1
        · rename_i hxy
          split at h2
          · rename_i hyz
            have hxz : x.toNat < z.toNat := by omega
            simp [hxz]
          · split at h2
            · rename_i hyz hyzE
              have hxz : x.toNat < z.toNat := by omega
              simp [hxz]
            · exact absurd h2 (by decide)
        · split at h1
          · rename_i hxy hxyE
            split at h2
            · rename_i hyz
              have hxz : x.toNat < z.toNat := by omega
              simp [hxz]
            · split at h2
              · rename_i hyz hyzE
                have hxzE : x.toNat = z.toNat := by omega
                have hxz : ¬ x.toNat < z.toNat := by omega
                simp [hxz, hxzE, ih ys zs h1 h2]
              · exact absurd h2 (by decide)
          · exact absurd h1 (by decide)

theorem strLe_total (a b : String) : strLe a b = true ∨ strLe b a = true :=
  charListLe_total a.data b.data

theorem strLe_trans (a b c : String) (h1 : strLe a b = true) (h2 : strLe b c = true) :
    strLe a c = true :=
  charListLe_trans a.data b.data c.data h1 h2


/-! ## Normalizer lemmas and claim C4 -/

theorem yes_no_idem (v : String) : yes_no (yes_no v) = yes_no v := by
  by_cases hy : pyStartsWith (pyLower (pyStrip v)) "y" = true
  · have h1 : yes_no v = "Yes" := by simp [yes_no, hy]
    rw [h1]; decide
  · by_cases hn : pyStartsWith (pyLower (pyStrip v)) "n" = true
    · have h1 : yes_no v = "No" := by simp [yes_no, hy, hn]
      rw [h1]; decide
    · have h1 : yes_no v = v := by simp [yes_no, hy, hn]
      rw [h1]; exact h1

theorem map_yes_no_idem (w : Option String) :
    Option.map yes_no (Option.map yes_no w) = Option.map yes_no w := by
  cases w <;> simp [yes_no_idem]

theorem priceUpdate_fix (pm x : Option (List (String × Int))) :
    priceUpdate pm (priceUpdate pm x) = priceUpdate pm x := by
  cases pm with
  | none => rfl
  | some m => cases hm : m.isEmpty <;> simp [priceUpdate, hm]

theorem sfUnify_fix (a b : Option String) :
    sfUnify (sfUnify a b) b = sfUnify a b := by
  cases a <;> cases b <;> simp [sfUnify]

theorem deriveOpt_fix {α : Type} (s : Option String) (f : String → α) (old : Option α) :
    deriveOpt s f (deriveOpt s f old) = deriveOpt s f old := by
  cases s <;> rfl

theorem fiveGUpdate_true (x : Option String) : fiveGUpdate true x = some "Yes" := by
  unfold fiveGUpdate
  cases hx : x == some "Yes" <;> simp_all

theorem fiveG_fix (h : Bool) (c : Option String) :
    fiveGUpdate h (Option.map yes_no (fiveGUpdate h (Option.map yes_no c))) =
      fiveGUpdate h (Option.map yes_no c) := by
  cases h
  · cases cond : ((Option.map yes_no c) == none || (pyStrip ((Option.map yes_no c).getD "") == ""))
    · have hu : fiveGUpdate false (Option.map yes_no c) = Option.map yes_no c := by
        unfold fiveGUpdate; simp [cond]
      rw [hu, map_yes_no_idem, hu]
    · have hu : fiveGUpdate false (Option.map yes_no c) = some "No" := by
        unfold fiveGUpdate; simp [cond]
      rw [hu]
      decide
  · rw [fiveGUpdate_true, fiveGUpdate_true]

/-- C4: applying `augment_product_data` twice to a record yields the
same enriched record as applying it once; in particular every derived
field (Modem Group, 5G support, the unified SpeedFusion keys, Router
Throughput (Mbps), SpeedFusion (Mbps), Users Min, Users Max, WAN Ports
Max, LAN Ports Max, and the price matrix) is identical. -/
theorem augment_idempotent (pdb : String → String → Option (List (String × Int)))
    (c n : String) (r : ARec) :
    augment_product_data pdb c n (augment_product_data pdb c n r) =
      augment_product_data pdb c n r := by
  unfold augment_product_data augLan augWan augUsers augSfMbps augRouterMbps augSfAes
    augSfNoenc augFiveGInfer augFiveGNorm augWifi augModem augPrice has5gScan
  simp only [ARec.mk.injEq]
  repeat' apply And.intro
  all_goals first
    | trivial
    | rfl
    | exact map_yes_no_idem _
    | exact fiveG_fix _ _
    | exact sfUnify_fix _ _
    | exact deriveOpt_fix _ _ _
    | exact priceUpdate_fix _ _
    | (rw [sfUnify_fix]; exact deriveOpt_fix _ _ _)

/-! ## Sorter claims C5 and C9 -/

theorem nameLe_total (x y : Product) : nameLe x y = true ∨ nameLe y x = true :=
  strLe_total (pyLower x.1) (pyLower y.1)

theorem nameLe_trans (x y z : Product) (h1 : nameLe x y = true) (h2 : nameLe y z = true) :
    nameLe x z = true :=
  strLe_trans (pyLower x.1) (pyLower y.1) (pyLower z.1) h1 h2

theorem descByLe_total (k : String) (x y : Product) :
    descByLe k x y = true ∨ descByLe k y x = true := by
  unfold descByLe
  rcases Int.lt_trichotomy (numField k x.2) (numField k y.2) with h | h | h
  · right; simp [h]
  · rcases strLe_total (pyLower x.1) (pyLower y.1) with hs | hs
    · left; simp [h, hs]
    · right; simp [h, hs]
  · left; simp [h]

theorem descByLe_trans (k : String) (x y z : Product) (h1 : descByLe k x y = true)
    (h2 : descByLe k y z = true) : descByLe k x z = true := by
  unfold descByLe at h1 h2 ⊢
  rcases Bool.or_eq_true_iff.mp h1 with ha | ha
  · rcases Bool.or_eq_true_iff.mp h2 with hb | hb
    · simp only [decide_eq_true_eq] at ha hb
      simp [Int.lt_trans hb ha]
    · rcases Bool.and_eq_true_iff.mp hb with ⟨hb1, _⟩
      simp only [beq_iff_eq] at hb1
      simp only [decide_eq_true_eq] at ha
      simp [hb1 ▸ ha]
  · rcases Bool.and_eq_true_iff.mp ha with ⟨ha1, ha2⟩
    simp only [beq_iff_eq] at ha1
    rcases Bool.or_eq_true_iff.mp h2 with hb | hb
    · simp only [decide_eq_true_eq] at hb
      simp [ha1 ▸ hb]
    · rcases Bool.and_eq_true_iff.mp hb with ⟨hb1, hb2⟩
      simp only [beq_iff_eq] at hb1
      have he : numField k x.2 = numField k z.2 := ha1.trans hb1
      simp [he, strLe_trans _ _ _ ha2 hb2]

/-- C5: sorting with key "router_desc" permutes the input into a list
that is non-increasing in the derived Router Throughput (Mbps) field
with ties resolved by case-insensitive name ascending, and sorting
with an absent key permutes the input into case-insensitive name
ascending order. -/
theorem sort_products_spec (P : List Product) :
    (List.Perm (sort_products P none) P ∧
      (sort_products P none).Pairwise
        (fun x y => strLe (pyLower x.1) (pyLower y.1) = true)) ∧
    (List.Perm (sort_products P (some "router_desc")) P ∧
      (sort_products P (some "router_desc")).Pairwise (fun x y =>
        numField "Router Throughput (Mbps)" y.2 ≤ numField "Router Throughput (Mbps)" x.2 ∧
          (numField "Router Throughput (Mbps)" x.2 = numField "Router Throughput (Mbps)" y.2 →
            strLe (pyLower x.1) (pyLower y.1) = true))) := by
  refine ⟨⟨sortLe_perm nameLe P, ?_⟩, ⟨sortLe_perm _ P, ?_⟩⟩
  · exact pairwise_sortLe nameLe nameLe_trans nameLe_total P
  · have hp := pairwise_sortLe (descByLe "Router Throughput (Mbps)")
      (descByLe_trans "Router Throughput (Mbps)") (descByLe_total "Router Throughput (Mbps)") P
    refine hp.imp ?_
    intro x y hxy
    unfold descByLe at hxy
    rcases Bool.or_eq_true_iff.mp hxy with h | h
    · simp only [decide_eq_true_eq] at h
      exact ⟨Int.le_of_lt h, fun he => absurd (he ▸ h) (Int.lt_irrefl _)⟩
    · rcases Bool.and_eq_true_iff.mp h with ⟨h1, h2⟩
      simp only [beq_iff_eq] at h1
      exact ⟨Int.le_of_eq h1.symm, fun _ => h2⟩

/-- C9 counterexample: the empty string is not one of the recognized
sort keys, yet `sort_products` does not return the input unchanged on
it (Python `if not key` treats "" like an absent key and sorts by
name). -/
theorem sort_unknown_key_counterexample :
    sort_products [("b", []), ("a", [])] (some "") ≠ [("b", []), ("a", [])] ∧
      sort_products [("b", []), ("a", [])] (some "") = [("a", []), ("b", [])] := by
  constructor <;> decide

/-- C9 amended: for every supplied sort key that is neither the empty
string nor one of the recognized keys, the Sorter returns the input
list unchanged (and, being a total function, raises no error); the
empty string is treated like an absent key. -/
theorem sort_unknown_key_noop (P : List Product) (k : String)
    (h1 : k ≠ "") (h2 : k ≠ "router_desc") (h3 : k ≠ "speedfusion_desc")
    (h4 : k ≠ "users_desc") (h5 : k ≠ "name_asc") :
    sort_products P (some k) = P := by
  simp [sort_products, h1, h2, h3, h4, h5]

/-- C9 witness: a concrete unrecognized key returns the input
unchanged. -/
theorem sort_unknown_key_noop_witness :
    sort_products [("b", []), ("a", [])] (some "zzz") = [("b", []), ("a", [])] :=
  sort_unknown_key_noop [("b", []), ("a", [])] "zzz" (by decide) (by decide) (by decide)
    (by decide) (by decide)


/-! ## Catalog Index and Salience lemmas -/

theorem foldl_invariant {σ α : Type} (Inv : σ → Prop) (step : σ → α → σ)
    (hstep : ∀ s a, Inv s → Inv (step s a)) :
    ∀ (l : List α) (s : σ), Inv s → Inv (l.foldl step s)
  | [], _, h0 => h0
  | a :: l, s, h0 => foldl_invariant Inv step hstep l (step s a) (hstep s a h0)

theorem mem_keys_addToIndex (k v a : String) :
    ∀ idx, (a ∈ (addToIndex idx k v).map Prod.fst ↔ a ∈ idx.map Prod.fst ∨ a = k)
  | [] => by simp [addToIndex]
  | (k', vs) :: rest => by
    by_cases hk : k' = k
    · subst hk
      simp [addToIndex]
      tauto
    · simp only [addToIndex, if_neg hk, List.map_cons, List.mem_cons,
        mem_keys_addToIndex k v a rest]
      tauto

theorem nodup_addToIndex (k v : String) :
    ∀ idx, ((idx : List (String × List String)).map Prod.fst).Nodup →
      ((addToIndex idx k v).map Prod.fst).Nodup
  | [], _ => by simp [addToIndex]
  | (k', vs) :: rest, h => by
    rw [List.map_cons, List.nodup_cons] at h
    obtain ⟨hk', hrest⟩ := h
    by_cases hk : k' = k
    · subst hk
      simp only [addToIndex, if_pos rfl, List.map_cons]
      exact List.nodup_cons.mpr ⟨hk', hrest⟩
    · simp only [addToIndex, if_neg hk, List.map_cons]
      refine List.nodup_cons.mpr ⟨?_, nodup_addToIndex k v rest hrest⟩
      rw [mem_keys_addToIndex]
      rintro (h1 | h1)
      · exact hk' h1
      · exact hk h1

theorem build_attribute_index_nodup (P : List Product) :
    ((build_attribute_index P).map Prod.fst).Nodup := by
  unfold build_attribute_index
  apply foldl_invariant
    (fun idx : List (String × List String) => (idx.map Prod.fst).Nodup)
  · intro idx p h
    apply foldl_invariant
      (fun idx : List (String × List String) => (idx.map Prod.fst).Nodup)
    · intro idx kv h
      by_cases he : EXCLUDED_KEYS.contains kv.1 = true
      · rw [if_pos he]; exact h
      · rw [if_neg he]; exact nodup_addToIndex kv.1 (pyStr kv.2) idx h
    · exact h
  · simp

theorem alookup_eq_some_iff {β : Type} (a : String) (vs : β) :
    ∀ (l : List (String × β)), (l.map Prod.fst).Nodup →
      (alookup a l = some vs ↔ (a, vs) ∈ l)
  | [], _ => by simp [alookup]
  | (k', v') :: rest, h => by
    rw [List.map_cons, List.nodup_cons] at h
    obtain ⟨hk', hrest⟩ := h
    by_cases hk : k' = a
    · subst hk
      have hl : alookup k' ((k', v') :: rest) = some v' := by simp [alookup]
      rw [hl, List.mem_cons]
      constructor
      · intro h1
        injection h1 with h1
        exact Or.inl (by rw [h1])
      · rintro (h1 | h1)
        · rw [Prod.mk.injEq] at h1
          rw [h1.2]
        · exact absurd (List.mem_map_of_mem Prod.fst h1) hk'
    · have hrec := alookup_eq_some_iff a vs rest hrest
      simp only [alookup, if_neg hk, List.mem_cons]
      rw [hrec]
      constructor
      · exact Or.inr
      · rintro (h1 | h1)
        · exfalso
          rw [Prod.mk.injEq] at h1
          exact hk h1.1.symm
        · exact h1

theorem mem_sortLe {α : Type} (le : α → α → Bool) (x : α) (l : List α) :
    x ∈ sortLe le l ↔ x ∈ l :=
  (sortLe_perm le l).mem_iff

theorem salienceLe_total (p q : String × Nat) :
    salienceLe p q = true ∨ salienceLe q p = true := by
  rcases Nat.lt_trichotomy p.2 q.2 with h | h | h
  · right; simp [salienceLe, h]
  · rcases strLe_total p.1 q.1 with hs | hs
    · left; simp [salienceLe, h, hs]
    · right; simp [salienceLe, h, hs]
  · left; simp [salienceLe, h]

theorem salienceLe_trans (p q r : String × Nat) (h1 : salienceLe p q = true)
    (h2 : salienceLe q r = true) : salienceLe p r = true := by
  unfold salienceLe at h1 h2 ⊢
  rcases Bool.or_eq_true_iff.mp h1 with ha | ha
  · rcases Bool.or_eq_true_iff.mp h2 with hb | hb
    · simp only [decide_eq_true_eq] at ha hb
      simp [Nat.lt_trans hb ha]
    · rcases Bool.and_eq_true_iff.mp hb with ⟨hb1, _⟩
      simp only [beq_iff_eq] at hb1
      simp only [decide_eq_true_eq] at ha
      simp [hb1 ▸ ha]
  · rcases Bool.and_eq_true_iff.mp ha with ⟨ha1, ha2⟩
    simp only [beq_iff_eq] at ha1
    rcases Bool.or_eq_true_iff.mp h2 with hb | hb
    · simp only [decide_eq_true_eq] at hb
      simp [ha1 ▸ hb]
    · rcases Bool.and_eq_true_iff.mp hb with ⟨hb1, hb2⟩
      simp only [beq_iff_eq] at hb1
      simp [ha1.trans hb1, strLe_trans _ _ _ ha2 hb2]

/-- Distinct-value count of an attribute in the facet index of a
product list (0 when the attribute is absent). -/
def distinctCount (P : List Product) (a : String) : Nat :=
  ((alookup a (build_attribute_index P)).getD []).length

theorem mem_scores_count (P : List Product) (p : String × Nat)
    (hp : p ∈ ((build_attribute_index P).filter (fun kv => 1 < kv.2.length)).map
      (fun kv => (kv.1, kv.2.length))) :
    p.2 = distinctCount P p.1 ∧ 1 < p.2 := by
  rcases List.mem_map.mp hp with ⟨kv, hkv, hpe⟩
  rcases List.mem_filter.mp hkv with ⟨hmem, hlen⟩
  have hlook : alookup kv.1 (build_attribute_index P) = some kv.2 :=
    (alookup_eq_some_iff kv.1 kv.2 _ (build_attribute_index_nodup P)).mpr hmem
  subst hpe
  constructor
  · simp [distinctCount, hlook]
  · simpa using hlen


/-! ## Salience claim C7 -/

/-- A two-product catalog whose attributes "a" and "B" both carry two
distinct values, so their salience scores tie. -/
def twoAttrCatalog : List Product :=
  [("p1", [("a", Val.vstr "1"), ("B", Val.vstr "x")]),
   ("p2", [("a", Val.vstr "2"), ("B", Val.vstr "y")])]

/-- C7 counterexample: on `twoAttrCatalog` the salience ranking
returns ["B", "a"] — "B" before "a" in code-point order — although the
two attributes tie at two distinct values each and the claimed
case-insensitive ascending tie-break would put "a" first: the output
violates the claimed order. -/
theorem salience_tiebreak_counterexample :
    compute_salience twoAttrCatalog = ["B", "a"] ∧
    ¬ (compute_salience twoAttrCatalog).Pairwise (fun x y =>
        distinctCount twoAttrCatalog y < distinctCount twoAttrCatalog x ∨
          (distinctCount twoAttrCatalog x = distinctCount twoAttrCatalog y ∧
            strLe (pyLower x) (pyLower y) = true)) := by
  constructor
  · decide
  · decide

/-- C7 (amended): the salience ranking keeps exactly the attributes of
the facet index with more than one distinct value, ordered by
distinct-value count descending with ties broken by code-point
(case-sensitive) attribute-name ascending. -/
theorem compute_salience_spec (P : List Product) :
    (∀ a, a ∈ compute_salience P ↔
      ∃ vs, alookup a (build_attribute_index P) = some vs ∧ 1 < vs.length) ∧
    (compute_salience P).Pairwise (fun a b =>
      distinctCount P b < distinctCount P a ∨
        (distinctCount P a = distinctCount P b ∧ strLe a b = true)) := by
  constructor
  · intro a
    unfold compute_salience
    constructor
    · intro ha
      rcases List.mem_map.mp ha with ⟨p, hp, hpa⟩
      rw [mem_sortLe] at hp
      rcases List.mem_map.mp hp with ⟨kv, hkv, hpe⟩
      rcases List.mem_filter.mp hkv with ⟨hmem, hlen⟩
      refine ⟨kv.2, ?_, by simpa using hlen⟩
      have hka : kv.1 = a := by rw [← hpa, ← hpe]
      rw [← hka]
      exact (alookup_eq_some_iff kv.1 kv.2 _ (build_attribute_index_nodup P)).mpr hmem
    · rintro ⟨vs, hvs, hlen⟩
      have hmem : (a, vs) ∈ build_attribute_index P :=
        (alookup_eq_some_iff a vs _ (build_attribute_index_nodup P)).mp hvs
      refine List.mem_map.mpr ⟨(a, vs.length), ?_, rfl⟩
      rw [mem_sortLe]
      exact List.mem_map.mpr ⟨(a, vs), List.mem_filter.mpr ⟨hmem, by simpa using hlen⟩, rfl⟩
  · unfold compute_salience
    rw [List.pairwise_map]
    refine List.Pairwise.imp_of_mem ?_
      (pairwise_sortLe salienceLe salienceLe_trans salienceLe_total _)
    intro p q hpmem hqmem hle
    rw [mem_sortLe] at hpmem hqmem
    have hpc := mem_scores_count P p hpmem
    have hqc := mem_scores_count P q hqmem
    unfold salienceLe at hle
    rcases Bool.or_eq_true_iff.mp hle with h | h
    · left
      simp only [decide_eq_true_eq] at h
      rw [← hpc.1, ← hqc.1]
      exact h
    · right
      rcases Bool.and_eq_true_iff.mp h with ⟨h1, h2⟩
      simp only [beq_iff_eq] at h1
      exact ⟨by rw [← hpc.1, ← hqc.1]; exact h1, h2⟩


/-! ## Association-list (dict) lemmas -/

theorem alookup_aset_self {β : Type} (k : String) (v : β) :
    ∀ l, alookup k (aset k v l) = some v
  | [] => by simp [aset, alookup]
  | (k', v') :: rest => by
    by_cases h : k' = k
    · subst h
      simp [aset, alookup]
    · simp only [aset, if_neg h, alookup, if_neg h]
      exact alookup_aset_self k v rest

theorem alookup_aset_ne {β : Type} (k k' : String) (v : β) (h : k' ≠ k) :
    ∀ l, alookup k' (aset k v l) = alookup k' l
  | [] => by
    simp only [aset, alookup, if_neg (fun he : k = k' => h he.symm)]
  | (k1, v1) :: rest => by
    by_cases h1 : k1 = k
    · subst h1
      simp only [aset, if_pos rfl, alookup, if_neg (fun he : k1 = k' => h he.symm)]
    · simp only [aset, if_neg h1, alookup]
      by_cases h2 : k1 = k'
      · simp [h2]
      · simp only [if_neg h2]
        exact alookup_aset_ne k k' v h rest

theorem alookup_aremove_self {β : Type} (k : String) :
    ∀ (l : List (String × β)), alookup k (aremove k l) = none
  | [] => rfl
  | (k1, v1) :: rest => by
    by_cases h1 : k1 = k
    · simp only [aremove, if_pos h1]
      exact alookup_aremove_self k rest
    · simp only [aremove, if_neg h1, alookup, if_neg h1]
      exact alookup_aremove_self k rest

theorem alookup_aremove_ne {β : Type} (k k' : String) (h : k' ≠ k) :
    ∀ (l : List (String × β)), alookup k' (aremove k l) = alookup k' l
  | [] => rfl
  | (k1, v1) :: rest => by
    by_cases h1 : k1 = k
    · subst h1
      simp only [aremove, if_pos rfl, alookup, if_neg (fun he : k1 = k' => h he.symm)]
      exact alookup_aremove_ne _ k' h rest
    · simp only [aremove, if_neg h1, alookup]
      by_cases h2 : k1 = k'
      · simp [h2]
      · simp only [if_neg h2]
        exact alookup_aremove_ne k k' h rest

theorem aremove_eq_of_none {β : Type} (k : String) :
    ∀ (l : List (String × β)), alookup k l = none → aremove k l = l
  | [], _ => rfl
  | (k1, v1) :: rest, h => by
    by_cases h1 : k1 = k
    · rw [alookup, if_pos h1] at h
      exact absurd h (by simp)
    · rw [alookup, if_neg h1] at h
      rw [aremove, if_neg h1, aremove_eq_of_none k rest h]

theorem aremove_sublist {β : Type} (k : String) :
    ∀ (l : List (String × β)), List.Sublist (aremove k l) l
  | [] => List.Sublist.refl _
  | (k1, v1) :: rest => by
    by_cases h1 : k1 = k
    · rw [aremove, if_pos h1]
      exact (aremove_sublist k rest).cons _
    · rw [aremove, if_neg h1]
      exact (aremove_sublist k rest).cons₂ _

theorem mem_aset {β : Type} (k : String) (v : β) (kv : String × β) :
    ∀ l, kv ∈ aset k v l → kv = (k, v) ∨ kv ∈ l
  | [], h => by simpa [aset] using h
  | (k1, v1) :: rest, h => by
    by_cases h1 : k1 = k
    · rw [aset, if_pos h1] at h
      rcases List.mem_cons.mp h with h | h
      · exact Or.inl h
      · exact Or.inr (List.mem_cons_of_mem _ h)
    · rw [aset, if_neg h1] at h
      rcases List.mem_cons.mp h with h | h
      · exact Or.inr (h ▸ List.mem_cons_self _ _)
      · rcases mem_aset k v kv rest h with h | h
        · exact Or.inl h
        · exact Or.inr (List.mem_cons_of_mem _ h)


/-! ## Filter Evaluator claim C2 -/

theorem numStage_sublist (key : String) (m : Option Int) (l : List Product) :
    List.Sublist (numStage key m l) l := by
  cases m with
  | none => exact List.Sublist.refl _
  | some m => exact List.filter_sublist _

theorem numStage_mono (key : String) (m : Option Int) {l l' : List Product}
    (h : List.Sublist l l') : List.Sublist (numStage key m l) (numStage key m l') := by
  cases m with
  | none => exact h
  | some m => exact h.filter _

theorem catStage_sublist (P : List Product) (F : Filters) :
    List.Sublist (catStage P F) P := by
  unfold catStage
  split
  · exact List.Sublist.refl _
  · exact List.filter_sublist _

theorem matches_filters_anti {F' F : Filters} (hs : List.Sublist F' F)
    (d : List (String × Val)) (h : matches_filters d F = true) :
    matches_filters d F' = true := by
  unfold matches_filters at h ⊢
  rw [List.all_eq_true] at h ⊢
  intro kv hkv
  exact h kv (hs.subset hkv)

theorem matches_filters_nil (d : List (String × Val)) : matches_filters d [] = true := rfl

theorem catStage_mono (P : List Product) {F F' : Filters}
    (himp : ∀ d, matches_filters d F = true → matches_filters d F' = true) :
    List.Sublist (catStage P F) (catStage P F') := by
  unfold catStage
  by_cases hF : F.isEmpty
  · rw [if_pos hF]
    by_cases hF' : F'.isEmpty
    · rw [if_pos hF']
    · rw [if_neg hF']
      have hall : ∀ p ∈ P, matches_filters p.2 F' = true := by
        intro p _
        refine himp p.2 ?_
        rw [List.isEmpty_iff.mp hF]
        exact matches_filters_nil p.2
      rw [List.filter_eq_self.mpr hall]
  · rw [if_neg hF]
    by_cases hF' : F'.isEmpty
    · rw [if_pos hF']
      exact List.filter_sublist _
    · rw [if_neg hF']
      exact List.monotone_filter_right P (fun d h => himp d.2 h)

theorem apply_filters_sublist (P : List Product) (F : Filters) (nf : NumFilters) :
    List.Sublist (apply_filters P F nf) P := by
  unfold apply_filters
  exact ((numStage_sublist _ _ _).trans ((numStage_sublist _ _ _).trans
    ((numStage_sublist _ _ _).trans (catStage_sublist P F))))

/-- C2: applying the Filter Evaluator never grows the product list,
and removing any single attribute constraint from the filter set never
decreases the result size (monotonic relaxation), for every numeric
filter set. -/
theorem apply_filters_shrink_monotone (P : List Product) (F : Filters) (nf : NumFilters) :
    (apply_filters P F nf).length ≤ P.length ∧
      ∀ a, (alookup a F).isSome = true →
        (apply_filters P F nf).length ≤ (apply_filters P (aremove a F) nf).length := by
  constructor
  · exact (apply_filters_sublist P F nf).length_le
  · intro a _
    have hsub : List.Sublist (apply_filters P F nf) (apply_filters P (aremove a F) nf) := by
      unfold apply_filters
      refine numStage_mono _ _ (numStage_mono _ _ (numStage_mono _ _ ?_))
      exact catStage_mono P
        (fun d h => matches_filters_anti (aremove_sublist a F) d h)
    exact hsub.length_le

/-- C2 witness: a concrete one-product instance with a selected
attribute constraint removed. -/
theorem apply_filters_shrink_monotone_witness :
    (apply_filters [("p", [("A", Val.vstr "y")])] [("A", ["x"])] ⟨none, none, none⟩).length ≤
        ([("p", [("A", Val.vstr "y")])] : List Product).length ∧
      ((alookup "A" [("A", ["x"])]).isSome = true ∧
        (apply_filters [("p", [("A", Val.vstr "y")])] [("A", ["x"])] ⟨none, none, none⟩).length ≤
          (apply_filters [("p", [("A", Val.vstr "y")])] (aremove "A" [("A", ["x"])])
            ⟨none, none, none⟩).length) :=
  ⟨(apply_filters_shrink_monotone _ _ _).1,
    by decide,
    (apply_filters_shrink_monotone _ _ _).2 "A" (by decide)⟩


/-! ## Facet Counter claims C1 and C3 -/

/-- C1 counterexample: with quick-pick group {A, B} registered and B
currently selected, the inclusion count for A clears B from the
hypothetical filter set, so it differs from the size of evaluating the
filter set that keeps all other entries of F. -/
theorem count_included_counterexample :
    count_with_included [("p", [("A", Val.vstr "a"), ("B", Val.vstr "c")])] [("B", ["b"])]
        "A" "a" ["A", "B"] ⟨none, none, none⟩ ≠
      (apply_filters [("p", [("A", Val.vstr "a"), ("B", Val.vstr "c")])]
        (aset "A" ["a"] [("B", ["b"])]) ⟨none, none, none⟩).length := by
  decide

/-- C1 (amended): the inclusion count equals the size of the Filter
Evaluator's result on F with attr forced to the single value v and all
other entries kept, provided the quick-pick clearing removes nothing —
that is, attr is not in the registered quick-pick group, or no other
group member has an entry in F. -/
theorem count_included_consistency (P : List Product) (F : Filters) (attr v : String)
    (qp : List String) (nf : NumFilters)
    (h : qp.contains attr = false ∨ ∀ a ∈ qp, a ≠ attr → alookup a F = none) :
    count_with_included P F attr v qp nf =
      (apply_filters P (aset attr [v] F) nf).length := by
  unfold count_with_included
  suffices hif : included_filters F attr v qp = aset attr [v] F by rw [hif]
  unfold included_filters
  rcases h with h | h
  · rw [if_neg (fun hc => Bool.false_ne_true (h ▸ hc))]
  · by_cases hc : qp.contains attr = true
    · rw [if_pos hc]
      have key : ∀ (qs : List String), (∀ a ∈ qs, a ≠ attr → alookup a F = none) →
          qs.foldl (fun acc a => if a = attr then acc else aremove a acc) (aset attr [v] F) =
            aset attr [v] F := by
        intro qs
        induction qs with
        | nil => intro _; rfl
        | cons a qs ih =>
          intro hq
          have hstep : (if a = attr then aset attr [v] F else aremove a (aset attr [v] F)) =
              aset attr [v] F := by
            by_cases ha : a = attr
            · rw [if_pos ha]
            · rw [if_neg ha]
              apply aremove_eq_of_none
              rw [alookup_aset_ne attr a [v] ha F]
              exact hq a (List.mem_cons_self a qs) ha
          rw [List.foldl_cons, hstep]
          exact ih (fun b hb hne => hq b (List.mem_cons_of_mem a hb) hne)
      exact key qp h
    · rw [if_neg hc]

/-- C1 witness: with no quick-pick group registered, the inclusion
count agrees with the evaluator on the extended filter set. -/
theorem count_included_consistency_witness :
    (([] : List String).contains "A" = false ∨
      ∀ a ∈ ([] : List String), a ≠ "A" → alookup a [("B", ["b"])] = none) ∧
    count_with_included [("p", [("A", Val.vstr "a")])] [("B", ["b"])] "A" "a" []
        ⟨none, none, none⟩ =
      (apply_filters [("p", [("A", Val.vstr "a")])] (aset "A" ["a"] [("B", ["b"])])
        ⟨none, none, none⟩).length :=
  ⟨Or.inl (by decide),
    count_included_consistency _ _ _ _ _ _ (Or.inl (by decide))⟩

/-- C3 counterexample: with group {A, B, C} registered and both A=x
and B=b selected, toggling A=x deselects A and leaves B selected, so
the hypothetical filter set still contains a selection for B. -/
theorem toggle_clear_counterexample :
    toggled_filters [("A", ["x"]), ("B", ["b"])] "A" "x" ["A", "B", "C"] = [("B", ["b"])] ∧
      alookup "B" (toggled_filters [("A", ["x"]), ("B", ["b"])] "A" "x" ["A", "B", "C"]) ≠
        none := by
  constructor <;> decide

/-- C3 (amended): with quick-pick group containing A and B (B distinct
from A) and B currently selected, toggling A to x clears B from the
hypothetical filter set, provided x is not already the sole selection
for A (that is, the toggle selects rather than deselects). -/
theorem toggled_clears_group (F : Filters) (A B x : String) (qp : List String)
    (hA : qp.contains A = true) (hB : B ∈ qp) (hBA : B ≠ A)
    (_hsel : alookup B F ≠ none)
    (hx : (((alookup A F).getD []).contains x && ((alookup A F).getD []).length == 1) = false) :
    alookup B (toggled_filters F A x qp) = none := by
  simp only [toggled_filters, hx, Bool.false_eq_true, if_false]
  unfold included_filters
  rw [if_pos hA]
  have preserve : ∀ (qs : List String) (acc : Filters), alookup B acc = none →
      alookup B (qs.foldl (fun acc a => if a = A then acc else aremove a acc) acc) = none := by
    intro qs
    induction qs with
    | nil => intro acc h; exact h
    | cons a qs ih =>
      intro acc h
      rw [List.foldl_cons]
      refine ih _ ?_
      by_cases ha : a = A
      · rw [if_pos ha]; exact h
      · rw [if_neg ha]
        by_cases hab : a = B
        · rw [hab, alookup_aremove_self]
        · rw [alookup_aremove_ne a B (fun he => hab he.symm) acc]
          exact h
  have hit : ∀ (qs : List String) (acc : Filters), B ∈ qs →
      alookup B (qs.foldl (fun acc a => if a = A then acc else aremove a acc) acc) = none := by
    intro qs
    induction qs with
    | nil => intro acc h; exact absurd h (List.not_mem_nil B)
    | cons a qs ih =>
      intro acc hmem
      rw [List.foldl_cons]
      rcases List.mem_cons.mp hmem with he | hm
      · subst he
        rw [if_neg hBA]
        exact preserve qs _ (alookup_aremove_self B acc)
      · exact ih _ hm
  exact hit qp _ hB

/-- C3 witness: concrete group {A, B, C}, B selected, A not yet
selected; toggling A=x leaves no selection for B. -/
theorem toggled_clears_group_witness :
    (["A", "B", "C"].contains "A" = true ∧ "B" ∈ ["A", "B", "C"] ∧ ("B" : String) ≠ "A" ∧
      alookup "B" [("B", ["b"])] ≠ none ∧
      ((((alookup "A" [("B", ["b"])]).getD []).contains "x" &&
        ((alookup "A" [("B", ["b"])]).getD []).length == 1) = false)) ∧
    alookup "B" (toggled_filters [("B", ["b"])] "A" "x" ["A", "B", "C"]) = none :=
  ⟨⟨by decide, by decide, by decide, by decide, by decide⟩,
    toggled_clears_group [("B", ["b"])] "A" "B" "x" ["A", "B", "C"] (by decide) (by decide)
      (by decide) (by decide) (by decide)⟩


/-! ## Single-selection invariant C10 -/

/-- A filter set maps every attribute present in it to exactly one
selected value. -/
def allSingleton (f : Filters) : Bool := f.all (fun kv => kv.2.length == 1)

theorem allSingleton_aset_single (k v : String) (f : Filters)
    (h : allSingleton f = true) : allSingleton (aset k [v] f) = true := by
  unfold allSingleton at h ⊢
  rw [List.all_eq_true] at h ⊢
  intro kv hkv
  rcases mem_aset k [v] kv f hkv with he | hm
  · rw [he]; rfl
  · exact h kv hm

theorem allSingleton_aremove (k : String) (f : Filters)
    (h : allSingleton f = true) : allSingleton (aremove k f) = true := by
  unfold allSingleton at h ⊢
  rw [List.all_eq_true] at h ⊢
  intro kv hkv
  exact h kv ((aremove_sublist k f).subset hkv)

theorem allSingleton_included (F : Filters) (attr v : String) (qp : List String)
    (h : allSingleton F = true) : allSingleton (included_filters F attr v qp) = true := by
  unfold included_filters
  have hset := allSingleton_aset_single attr v F h
  split
  · refine foldl_invariant (fun f => allSingleton f = true) _ ?_ qp _ hset
    intro f a hf
    by_cases ha : a = attr
    · rw [if_pos ha]; exact hf
    · rw [if_neg ha]; exact allSingleton_aremove a f hf
  · exact hset

/-- C10: every filter set produced by `parse_filters`, and every
hypothetical filter set built by the toggle and inclusion counters
from a single-selection filter set, maps each attribute present in it
to exactly one selected value. -/
theorem filters_singleton_invariant :
    (∀ args, allSingleton (parse_filters args) = true) ∧
    (∀ F attr v qp, allSingleton F = true →
      allSingleton (included_filters F attr v qp) = true) ∧
    (∀ F attr v qp, allSingleton F = true →
      allSingleton (toggled_filters F attr v qp) = true) := by
  refine ⟨?_, fun F attr v qp h => allSingleton_included F attr v qp h, ?_⟩
  · intro args
    unfold parse_filters
    refine foldl_invariant (fun f => allSingleton f = true) _ ?_ _ [] rfl
    intro f k hf
    by_cases hres : RESERVED_PARAMS.contains k = true
    · rw [if_pos hres]; exact hf
    · rw [if_neg hres]
      cases hget : getlist args k with
      | nil => exact hf
      | cons v rest => exact allSingleton_aset_single k v f hf
  · intro F attr v qp h
    unfold toggled_filters
    dsimp only
    split
    · exact allSingleton_aremove attr F h
    · exact allSingleton_included F attr v qp h

/-- C10 witness: concrete instances of all three invariant parts. -/
theorem filters_singleton_invariant_witness :
    allSingleton (parse_filters [("Color", "Red"), ("Color", "Blue")]) = true ∧
    (allSingleton [("B", ["b"])] = true ∧
      allSingleton (included_filters [("B", ["b"])] "A" "x" ["A", "B"]) = true) ∧
    (allSingleton [("B", ["b"])] = true ∧
      allSingleton (toggled_filters [("B", ["b"])] "A" "x" ["A", "B"]) = true) :=
  ⟨filters_singleton_invariant.1 [("Color", "Red"), ("Color", "Blue")],
    ⟨by decide, filters_singleton_invariant.2.1 [("B", ["b"])] "A" "x" ["A", "B"] (by decide)⟩,
    ⟨by decide, filters_singleton_invariant.2.2 [("B", ["b"])] "A" "x" ["A", "B"] (by decide)⟩⟩


/-! ## Request parsing claim C8 -/

theorem mem_dedupKeysAux (a : String) :
    ∀ (l seen : List String), a ∈ dedupKeysAux seen l ↔ (a ∈ l ∧ a ∉ seen)
  | [], seen => by simp [dedupKeysAux]
  | k :: rest, seen => by
    by_cases hk : seen.contains k = true
    · rw [dedupKeysAux, if_pos hk, mem_dedupKeysAux a rest seen]
      have hkseen : k ∈ seen := by
        simpa using hk
      constructor
      · rintro ⟨h1, h2⟩
        exact ⟨List.mem_cons_of_mem k h1, h2⟩
      · rintro ⟨h1, h2⟩
        rcases List.mem_cons.mp h1 with he | hm
        · exact absurd (he ▸ hkseen) h2
        · exact ⟨hm, h2⟩
    · rw [dedupKeysAux, if_neg hk, List.mem_cons, mem_dedupKeysAux a rest (k :: seen)]
      have hknot : k ∉ seen := by
        simpa using hk
      constructor
      · rintro (he | ⟨h1, h2⟩)
        · exact ⟨he ▸ List.mem_cons_self k rest, he ▸ hknot⟩
        · exact ⟨List.mem_cons_of_mem k h1, fun hs => h2 (List.mem_cons_of_mem k hs)⟩
      · rintro ⟨h1, h2⟩
        rcases List.mem_cons.mp h1 with he | hm
        · exact Or.inl he
        · by_cases hak : a = k
          · exact Or.inl hak
          · exact Or.inr ⟨hm, fun hs => by
              rcases List.mem_cons.mp hs with he' | hm'
              · exact hak he'
              · exact h2 hm'⟩

theorem dedupKeysAux_nodup : ∀ (l seen : List String), (dedupKeysAux seen l).Nodup
  | [], _ => List.nodup_nil
  | k :: rest, seen => by
    by_cases hk : seen.contains k = true
    · rw [dedupKeysAux, if_pos hk]
      exact dedupKeysAux_nodup rest seen
    · rw [dedupKeysAux, if_neg hk]
      refine List.nodup_cons.mpr ⟨?_, dedupKeysAux_nodup rest (k :: seen)⟩
      intro hmem
      exact ((mem_dedupKeysAux k rest (k :: seen)).mp hmem).2 (List.mem_cons_self k seen)

theorem mem_dedupKeys (a : String) (l : List String) : a ∈ dedupKeys l ↔ a ∈ l := by
  rw [dedupKeys, mem_dedupKeysAux]
  simp

theorem dedupKeys_nodup (l : List String) : (dedupKeys l).Nodup :=
  dedupKeysAux_nodup l []

theorem getlist_mem_keys (args : List (String × String)) (k v : String)
    (rest : List String) (hget : getlist args k = v :: rest) :
    k ∈ args.map Prod.fst := by
  unfold getlist at hget
  rcases hf : args.filter (fun kv => kv.1 = k) with _ | ⟨kv, rest'⟩
  · rw [hf] at hget
    exact absurd hget (by simp)
  · have hkv : kv ∈ args.filter (fun kv => kv.1 = k) := by
      rw [hf]
      exact List.mem_cons_self kv rest'
    rcases List.mem_filter.mp hkv with ⟨hmem, hkey⟩
    simp only [decide_eq_true_eq] at hkey
    exact List.mem_map.mpr ⟨kv, hmem, hkey⟩

theorem parse_foldl_not_mem (args : List (String × String)) (k : String) :
    ∀ (ks : List String) (acc : Filters), k ∉ ks →
      alookup k (ks.foldl (fun filters k' =>
        if RESERVED_PARAMS.contains k' = true then filters
        else match getlist args k' with
          | [] => filters
          | v :: _ => aset k' [v] filters) acc) = alookup k acc
  | [], acc, _ => rfl
  | a :: ks, acc, hmem => by
    have hka : k ≠ a := fun he => hmem (he ▸ List.mem_cons_self a ks)
    have hks : k ∉ ks := fun hm => hmem (List.mem_cons_of_mem a hm)
    rw [List.foldl_cons, parse_foldl_not_mem args k ks _ hks]
    by_cases hres : RESERVED_PARAMS.contains a = true
    · rw [if_pos hres]
    · rw [if_neg hres]
      cases hget : getlist args a with
      | nil => rfl
      | cons v rest => exact alookup_aset_ne a k [v] hka acc

theorem parse_foldl_first (args : List (String × String)) (k v : String)
    (rest : List String) (hres : RESERVED_PARAMS.contains k = false)
    (hget : getlist args k = v :: rest) :
    ∀ (ks : List String) (acc : Filters), k ∈ ks → ks.Nodup →
      alookup k (ks.foldl (fun filters k' =>
        if RESERVED_PARAMS.contains k' = true then filters
        else match getlist args k' with
          | [] => filters
          | v :: _ => aset k' [v] filters) acc) = some [v]
  | [], _, hmem, _ => absurd hmem (List.not_mem_nil k)
  | a :: ks, acc, hmem, hnd => by
    rcases List.nodup_cons.mp hnd with ⟨hna, hnks⟩
    rw [List.foldl_cons]
    rcases List.mem_cons.mp hmem with he | hm
    · subst he
      rw [parse_foldl_not_mem args k ks _ hna]
      rw [if_neg (fun hc => Bool.false_ne_true (hres ▸ hc)), hget]
      exact alookup_aset_self k [v] acc
    · exact parse_foldl_first args k v rest hres hget ks _ hm hnks

/-- C8 counterexample: supplying the same attribute twice keeps the
value supplied first, not last. -/
theorem parse_filters_counterexample :
    getlist [("Color", "Red"), ("Color", "Blue")] "Color" = ["Red", "Blue"] ∧
      alookup "Color" (parse_filters [("Color", "Red"), ("Color", "Blue")]) ≠
        some ["Blue"] ∧
      alookup "Color" (parse_filters [("Color", "Red"), ("Color", "Blue")]) =
        some ["Red"] := by
  refine ⟨by decide, by decide, by decide⟩

/-- C8 (amended): when a non-reserved selected attribute name is
supplied with several values, the filter set built by `parse_filters`
maps that attribute to the single value that was supplied first. -/
theorem parse_filters_first_wins (args : List (String × String)) (k v : String)
    (rest : List String) (hres : RESERVED_PARAMS.contains k = false)
    (hget : getlist args k = v :: rest) :
    alookup k (parse_filters args) = some [v] := by
  unfold parse_filters
  exact parse_foldl_first args k v rest hres hget (dedupKeys (args.map Prod.fst)) []
    ((mem_dedupKeys k _).mpr (getlist_mem_keys args k v rest hget))
    (dedupKeys_nodup _)

/-- C8 witness: the concrete two-value request maps Color to the first
value Red. -/
theorem parse_filters_first_wins_witness :
    RESERVED_PARAMS.contains "Color" = false ∧
      getlist [("Color", "Red"), ("Color", "Blue")] "Color" = ["Red", "Blue"] ∧
      alookup "Color" (parse_filters [("Color", "Red"), ("Color", "Blue")]) =
        some ["Red"] :=
  ⟨by decide, by decide,
    parse_filters_first_wins [("Color", "Red"), ("Color", "Blue")] "Color" "Red" ["Blue"]
      (by decide) (by decide)⟩


/-! ## Throughput parsing claim C6 -/

theorem pyRoundNat_zero (den : Nat) (h : 0 < den) : pyRoundNat 0 den = 0 := by
  unfold pyRoundNat
  simp [Nat.zero_div, Nat.zero_mod, h]

theorem mbpsDenom_pos (s : String) : 0 < mbpsDenom s := by
  unfold mbpsDenom
  exact Nat.pos_pow_of_pos _ (by norm_num)

/-- C6: throughput parsing computes Python `round` of the first
decimal number scanned from the input (as an exact rational with
power-of-ten denominator), multiplied by 1000 exactly when the
lowered, stripped input contains one of the code's gigabit markers,
and otherwise taken as megabits; a string with no parseable number
(in particular the empty string) yields 0, and "2.5 Gbps" parses to
2500. -/
theorem parse_mbps_spec :
    (∀ s : String, s ≠ "" → hasGigaMarker (pyLower (stripNbsp s)) = true →
        _parse_mbps s = pyRoundNat (mbpsNumer s * 1000) (mbpsDenom s)) ∧
    (∀ s : String, s ≠ "" → hasGigaMarker (pyLower (stripNbsp s)) = false →
        _parse_mbps s = pyRoundNat (mbpsNumer s) (mbpsDenom s)) ∧
    (∀ s : String, mbpsNumer s = 0 → _parse_mbps s = 0) ∧
    _parse_mbps "" = 0 ∧
    _parse_mbps "2.5 Gbps" = 2500 := by
  refine ⟨?_, ?_, ?_, rfl, by decide⟩
  · intro s hs hg
    unfold _parse_mbps
    rw [if_neg hs]
    simp only [hg, if_true]
  · intro s hs hg
    unfold _parse_mbps
    rw [if_neg hs]
    simp only [hg, Bool.false_eq_true, if_false, Nat.mul_one]
  · intro s h0
    unfold _parse_mbps
    by_cases hs : s = ""
    · rw [if_pos hs]
    · rw [if_neg hs, h0]
      simp only [Nat.zero_mul]
      exact pyRoundNat_zero _ (mbpsDenom_pos s)

/-- C6 witness: the marker case at "2.5 Gbps", the megabit case at
"300 Mbps", and the unparseable case at "N/A". -/
theorem parse_mbps_spec_witness :
    (("2.5 Gbps" : String) ≠ "" ∧ hasGigaMarker (pyLower (stripNbsp "2.5 Gbps")) = true ∧
      _parse_mbps "2.5 Gbps" = pyRoundNat (mbpsNumer "2.5 Gbps" * 1000) (mbpsDenom "2.5 Gbps")) ∧
    (("300 Mbps" : String) ≠ "" ∧ hasGigaMarker (pyLower (stripNbsp "300 Mbps")) = false ∧
      _parse_mbps "300 Mbps" = pyRoundNat (mbpsNumer "300 Mbps") (mbpsDenom "300 Mbps")) ∧
    (mbpsNumer "N/A" = 0 ∧ _parse_mbps "N/A" = 0) :=
  ⟨⟨by decide, by decide, parse_mbps_spec.1 "2.5 Gbps" (by decide) (by decide)⟩,
    ⟨by decide, by decide, parse_mbps_spec.2.1 "300 Mbps" (by decide) (by decide)⟩,
    ⟨by decide, parse_mbps_spec.2.2.1 "N/A" (by decide)⟩⟩


end SalesCtonet
